import Mathlib

/-!
Verification development for the yt-note segmentation + enrichment pipeline.

Shallow embedding of the core algorithms of the repository:
- backend/openai_api/enrichment.py  (process_field, enrich_chunk, enrich_chunks_parallel)
- backend/subtitles/extractor.py    (_split_into_sentences, _chunk_by_words, _chunk_by_duration)
- backend/db/book_chapters_crud.py  (reorder_chapters)
- backend/orchestrator.py           (process_video_subtitles_only, process_ai_enrichment_only,
                                     process_full_video)

Machine text is modelled at word granularity (a pseudo-sentence is a list of
words); joining with single spaces and re-splitting in the Python source is the
identity on word sequences, so list concatenation and List.length faithfully
model the source's join / split / len(x.split()) operations.  The external
generative service is modelled as an oracle mapping each attempt of each
(segment, field) work item to its outcome; thread-pool nondeterminism is
modelled by quantifying over the order in which completed futures are observed
(as_completed), which is the only way scheduling can influence the result.
-/

namespace YtNote

/-! ## Enrichment client: backend/openai_api/enrichment.py -/

/-- Outcome of one external generative call
    (openai client.chat.completions.create): a successful response with the
    message content, a RateLimitError, or any other exception. -/
inductive GenResult where
  | ok (content : String)
  | rateLimited
  | otherError (msg : String)
deriving DecidableEq

/-- Per-attempt oracle for one (segment, field) work item: attempt number to
    call outcome. -/
def AttemptOracle : Type := Nat → GenResult

/-- The retry loop of process_field (enrichment.py lines 59-82).
    Python state: retries counts RateLimitErrors seen so far and the loop runs
    while retries is at most max_retries, so the remaining permitted attempt
    count (fuel) is max_retries + 1 - retries; it is the structural recursion
    measure here.  Returns (field value, sleep log, number of calls issued).
    The fuel = 0 branch is the dead code after the Python while loop. -/
def processFieldGo (oracle : AttemptOracle) (retry_delay : Nat) :
    Nat → Nat → List Nat → String × List Nat × Nat
  | 0, attempt, waits => ("", waits, attempt)
  | fuel + 1, attempt, waits =>
    match oracle attempt with
    | .ok s => (s.trim, waits, attempt + 1)
    | .otherError msg => ("[Error: " ++ msg ++ "]", waits, attempt + 1)
    | .rateLimited =>
      if fuel = 0 then
        ("[Rate limit exceeded]", waits, attempt + 1)
      else
        processFieldGo oracle retry_delay fuel (attempt + 1) (waits ++ [retry_delay])

/-- process_field (enrichment.py lines 52-82): empty prompt template short
    circuits to the empty string with no external call; otherwise run the
    retry loop with max_retries + 1 permitted attempts.
    Result: (field value, list of sleeps performed, number of calls issued). -/
def process_field (oracle : AttemptOracle) (prompt_template : String)
    (max_retries retry_delay : Nat) : String × List Nat × Nat :=
  if prompt_template = "" then ("", [], 0)
  else processFieldGo oracle retry_delay (max_retries + 1) 0 []

/-- The four field names of the fields dict of enrich_chunk
    (enrichment.py lines 45-50). -/
def fourFields : List String := ["title", "field_1", "field_2", "field_3"]

/-- Oracle for one segment: field name to per-attempt oracle. -/
def FieldOracle : Type := String → AttemptOracle

/-- enrich_chunk (enrichment.py lines 20-96).  The prompt map is modelled as a
    partial map (prompts.get fn defaults to the empty string).  The four field
    futures complete in the order fieldOrder (the as_completed order); the
    results dict is an association list keyed by field name built in that
    order.  model / temperature / max_tokens only parameterize the external
    call and are absorbed into the oracle. -/
def enrich_chunk (oracle : FieldOracle) (prompts : String → Option String)
    (max_retries retry_delay : Nat) (fieldOrder : List String) :
    List (String × String) :=
  fieldOrder.map fun fn =>
    (fn, (process_field (oracle fn) ((prompts fn).getD "") max_retries retry_delay).1)

/-- Python dict lookup on an association list (first binding wins, as in a
    dict built by repeated assignment with distinct keys). -/
def dictLookup (d : List (String × String)) (k : String) : Option String :=
  (d.find? fun p => p.1 = k).map (·.2)

/-- Oracle for a batch: chunk index to per-field oracle. -/
def BatchOracle : Type := Nat → FieldOracle

/-- process_chunk inside enrich_chunks_parallel (enrichment.py lines 112-123):
    returns (idx, {**chunk, **result}).  The merged dict is modelled as a pair
    because the chunk keys (text, word_count, sentence_count) and the result
    keys (the four field names) are disjoint. -/
def process_chunk {σ : Type} (oracle : BatchOracle) (prompts : String → Option String)
    (max_retries retry_delay : Nat) (fieldOrders : Nat → List String)
    (idx : Nat) (chunk : σ) : Nat × (σ × List (String × String)) :=
  (idx, (chunk, enrich_chunk (oracle idx) prompts max_retries retry_delay (fieldOrders idx)))

/-- enrich_chunks_parallel (enrichment.py lines 99-137).  complOrder is the
    order in which as_completed yields the chunk futures; results_dict is an
    association list keyed by chunk index built in that order; the returned
    list is [results_dict[i] for i in range(len(chunks))] (a missing index
    would be a KeyError, modelled as none). -/
def enrich_chunks_parallel {σ : Type} (oracle : BatchOracle)
    (prompts : String → Option String) (max_retries retry_delay : Nat)
    (fieldOrders : Nat → List String) (chunks : List σ) (complOrder : List Nat) :
    List (Option (σ × List (String × String))) :=
  let results := complOrder.filterMap fun i =>
    (chunks.get? i).map fun c =>
      process_chunk oracle prompts max_retries retry_delay fieldOrders i c
  (List.range chunks.length).map fun i =>
    ((results.find? fun p => p.1 = i).map (·.2))

/-! ## Word-bounded segmenter: backend/subtitles/extractor.py -/

/-- Recursion worker for _split_into_sentences: words are consumed in groups
    of words_per_segment.  The fuel starts at the word count, which bounds the
    number of groups whenever words_per_segment is positive (the Python for
    loop over range(0, len(words), wps) requires wps positive as well). -/
def splitGo {α : Type} (wps : Nat) : Nat → List α → List (List α)
  | 0, _ => []
  | _, [] => []
  | fuel + 1, ws => ws.take wps :: splitGo wps fuel (ws.drop wps)

/-- _split_into_sentences (extractor.py lines 139-148): split the word list
    into fixed-size pseudo-sentences of words_per_segment words (default 40);
    a word is an element of the abstract alphabet α since the source only
    splits and re-joins on single spaces. -/
def splitIntoSentences {α : Type} (words : List α) (wps : Nat := 40) : List (List α) :=
  splitGo wps words.length words

/-- One output chunk of _chunk_by_words: text is the chunk's word sequence
    (the source stores the space-joined string; word_count is the length of
    its split, sentence_count the number of pseudo-sentences). -/
structure Chunk (α : Type) where
  text : List α
  word_count : Nat
  sentence_count : Nat
deriving DecidableEq

/-- Loop state of _chunk_by_words: the chunks list, current_chunk and
    current_word_count. -/
structure WState (α : Type) where
  chunks : List (Chunk α)
  current : List (List α)
  cnt : Nat
deriving DecidableEq

/-- The overlap scan of _chunk_by_words (extractor.py lines 171-179 and
    196-204): iterate the just-closed chunk's sentences in reverse, inserting
    each at the front of the accumulator while the accumulated word count
    stays within overlap_words, stopping at the first sentence that does not
    fit.  Takes the reversed sentence list; returns (overlap sentences,
    overlap word count). -/
def overlapGo {α : Type} (ow : Nat) :
    List (List α) → List (List α) → Nat → List (List α) × Nat
  | [], acc, cnt => (acc, cnt)
  | s :: rest, acc, cnt =>
    if cnt + s.length ≤ ow then overlapGo ow rest (s :: acc) (cnt + s.length)
    else (acc, cnt)

/-- Close the current chunk and seed the next one with the overlap suffix
    (the block duplicated at extractor.py lines 162-182 and 187-207). -/
def closeChunk {α : Type} (ow : Nat) (st : WState α) : WState α :=
  let c : Chunk α := ⟨st.current.flatten, st.cnt, st.current.length⟩
  let ov := overlapGo ow st.current.reverse [] 0
  ⟨st.chunks ++ [c], ov.1, ov.2⟩

/-- The body of the for loop of _chunk_by_words (extractor.py lines 158-207)
    for one sentence: close the current chunk first if appending would exceed
    max_words (and the current chunk is non-empty), append the sentence, then
    close if the running count reached target_words. -/
def chunkStep {α : Type} (target max_w ow : Nat) (st : WState α) (s : List α) :
    WState α :=
  let st1 := if max_w < st.cnt + s.length && !st.current.isEmpty
             then closeChunk ow st else st
  let st2 : WState α := ⟨st1.chunks, st1.current ++ [s], st1.cnt + s.length⟩
  if target ≤ st2.cnt then closeChunk ow st2 else st2

/-- Merge the trailing sentences into the last chunk (extractor.py lines
    219-227); the merged word count is recomputed from the merged text. -/
def mergeLast {α : Type} : List (Chunk α) → List (List α) → List (Chunk α)
  | [], _ => []
  | [c], cur =>
    [⟨c.text ++ cur.flatten, (c.text ++ cur.flatten).length,
      c.sentence_count + cur.length⟩]
  | c :: c2 :: rest, cur => c :: mergeLast (c2 :: rest) cur

/-- Final-chunk handling of _chunk_by_words (extractor.py lines 209-227):
    emit the trailing chunk if it reaches min_final_words or no chunk exists
    yet, otherwise merge it into the previous chunk. -/
def chunkFinish {α : Type} (mf : Nat) (st : WState α) : List (Chunk α) :=
  if !st.current.isEmpty then
    if mf ≤ st.cnt || st.chunks.isEmpty then
      st.chunks ++ [⟨st.current.flatten, st.cnt, st.current.length⟩]
    else mergeLast st.chunks st.current
  else st.chunks

/-- _chunk_by_words (extractor.py lines 151-229). -/
def chunkByWords {α : Type} (sentences : List (List α))
    (target max_w ow mf : Nat) : List (Chunk α) :=
  chunkFinish mf (sentences.foldl (chunkStep target max_w ow) ⟨[], [], 0⟩)

/-- Whether the small-tail merge branch of _chunk_by_words fires on this
    input (the loop left a trailing chunk below min_final_words while earlier
    chunks exist). -/
def mergeFires {α : Type} (sentences : List (List α))
    (target max_w ow mf : Nat) : Bool :=
  let st := sentences.foldl (chunkStep target max_w ow) (⟨[], [], 0⟩ : WState α)
  !st.current.isEmpty && decide (st.cnt < mf) && !st.chunks.isEmpty

/-- Word-bounded segmentation of an input text, as wired in
    extract_and_chunk_subtitles (extractor.py lines 353-363): pseudo-sentences
    of 40 words, then _chunk_by_words. -/
def chunkText {α : Type} (words : List α) (target max_w ow mf : Nat) :
    List (Chunk α) :=
  chunkByWords (splitIntoSentences words 40) target max_w ow mf

/-- Concatenation of the chunks' non-overlap portions: chunk i contributes its
    word sequence with its first (os i) words (its declared overlap prefix,
    carried over from the previous chunk) removed. -/
def droppedConcat {α : Type} (os : List Nat) (chunks : List (Chunk α)) : List α :=
  (List.zipWith (fun o c => c.text.drop o) os chunks).flatten

/-- Coverage invariant of the _chunk_by_words loop: there are per-chunk
    overlap-prefix lengths os (each at most overlap_words, 0 for the first
    chunk) and a seed length for the current chunk (the words carried into it
    by the overlap scan) such that dropping each chunk's overlap prefix and
    the current chunk's seed and concatenating reproduces exactly the words
    consumed so far; current_word_count equals the current chunk's word
    count. -/
def WInv {α : Type} (ow : Nat) (consumed : List α) (st : WState α) : Prop :=
  ∃ os seed,
    os.length = st.chunks.length ∧
    (∀ o ∈ os, o ≤ ow) ∧
    (∀ o ∈ os.take 1, o = 0) ∧
    (st.chunks = [] → seed = 0) ∧
    seed ≤ st.current.flatten.length ∧
    seed ≤ ow ∧
    st.cnt = st.current.flatten.length ∧
    droppedConcat os st.chunks ++ st.current.flatten.drop seed = consumed

/-! ## Duration-bounded segmenter: _chunk_by_duration (extractor.py 232-295) -/

/-- One time-tagged caption entry; stop is the source's end field (a reserved
    word in Lean), times in whole seconds, text at word granularity. -/
structure Entry (α : Type) where
  start : Nat
  stop : Nat
  text : List α
deriving DecidableEq

/-- One duration-mode chunk (text joined from its entries, plus the absolute
    interval bookkeeping fields). -/
structure DChunk (α : Type) where
  text : List α
  word_count : Nat
  sentence_count : Nat
  start_time : Nat
  end_time : Nat
  duration : Nat
deriving DecidableEq

/-- Merge of a too-short final interval into the previous chunk
    (extractor.py lines 276-281): text appended, word_count recomputed,
    sentence_count incremented by the entry count, end_time set to the new
    chunk end and duration recomputed. -/
def mergeLastD {α : Type} : List (DChunk α) → List (Entry α) → Nat → List (DChunk α)
  | [], _, _ => []
  | [c], es, ce =>
    [⟨c.text ++ (es.map Entry.text).flatten,
      (c.text ++ (es.map Entry.text).flatten).length,
      c.sentence_count + es.length, c.start_time, ce, ce - c.start_time⟩]
  | c :: c2 :: rest, es, ce => c :: mergeLastD (c2 :: rest) es ce

/-- The while loop of _chunk_by_duration, one iteration per interval index n
    (the source's chunk_num - 1; its first-chunk special case computes the
    same chunk_start = 0 as the general formula).  The loop advances n by one
    each iteration and stops once n * target reaches video_end, so a fuel of
    video_end + 1 iterations is sufficient whenever target is positive; the
    guard is still re-checked every iteration, so the result agrees with the
    source's while loop. -/
def durGo {α : Type} (entries : List (Entry α))
    (video_end target overlap min_final : Nat) :
    Nat → Nat → List (DChunk α) → List (DChunk α)
  | 0, _, chunks => chunks
  | fuel + 1, n, chunks =>
    if n * target < video_end then
      let chunk_start := n * target
      let chunk_end := min (chunk_start + target + overlap) video_end
      let chunk_entries := entries.filter fun e =>
        decide (e.start < chunk_end) && decide (chunk_start < e.stop)
      let chunks' :=
        if !chunk_entries.isEmpty then
          let actual_duration := chunk_end - chunk_start
          if (video_end ≤ chunk_end) && decide (actual_duration < min_final)
              && !chunks.isEmpty then
            mergeLastD chunks chunk_entries chunk_end
          else
            chunks ++ [⟨(chunk_entries.map Entry.text).flatten,
                        (chunk_entries.map Entry.text).flatten.length,
                        chunk_entries.length, chunk_start, chunk_end,
                        actual_duration⟩]
        else chunks
      durGo entries video_end target overlap min_final fuel (n + 1) chunks'
    else chunks

/-- _chunk_by_duration (extractor.py lines 232-295): empty entry list gives
    an empty chunk list; video_end is the last entry's end time. -/
def chunkByDuration {α : Type} (entries : List (Entry α))
    (target overlap min_final : Nat) : List (DChunk α) :=
  match entries.getLast? with
  | none => []
  | some last =>
    durGo entries last.stop target overlap min_final (last.stop + 1) 0 []

/-! ## Reindexer: reorder_chapters (backend/db/book_chapters_crud.py 431-493) -/

/-- One book_chapters row for a fixed book: its chapter_id (an Int, since the
    two-phase reorder stages rows at negative ids) plus an abstract payload
    distinguishing the row (chapter text path and fields, untouched by the
    reorder). -/
structure Row where
  cid : Int
  tag : Nat
deriving DecidableEq

/-- One updatePosition write: supabase update chapter_id = new where
    chapter_id = old (applied to every row currently holding old). -/
def updPos (old new : Int) (rows : List Row) : List Row :=
  rows.map fun r => if r.cid = old then ⟨new, r.tag⟩ else r

/-- Phase A write list (book_chapters_crud.py lines 467-474): for idx, old_id
    in enumerate(chapter_order), set the row at old_id to -(idx + 1). -/
def phaseAWritesFrom (idx : Nat) : List Int → List (Int × Int)
  | [] => []
  | o :: rest => (o, -((idx : Int) + 1)) :: phaseAWritesFrom (idx + 1) rest

/-- Phase B write list (book_chapters_crud.py lines 479-486): for idx in
    enumerate(chapter_order), set the row at -(idx + 1) to idx + 1. -/
def phaseBWritesFrom (idx : Nat) : List Int → List (Int × Int)
  | [] => []
  | _ :: rest => (-((idx : Int) + 1), (idx : Int) + 1) :: phaseBWritesFrom (idx + 1) rest

/-- The full (old, new) write sequence issued by a validated reorder. -/
def reorderWrites (order : List Int) : List (Int × Int) :=
  phaseAWritesFrom 0 order ++ phaseBWritesFrom 0 order

/-- Apply a prefix of the write sequence to the stored rows. -/
def applyWrites (ws : List (Int × Int)) (rows : List Row) : List Row :=
  ws.foldl (fun rs w => updPos w.1 w.2 rs) rows

/-- reorder_chapters (book_chapters_crud.py lines 431-493), returning the
    success flag and the list of updatePosition writes it issues: an empty
    chapter set fails; then each listed chapter_id is checked for existence
    (returning failure before any write if one is missing); a validated order
    issues the phase A then phase B writes and returns success. -/
def reorder_chapters (rows : List Row) (order : List Int) : Bool × List (Int × Int) :=
  if rows.isEmpty then (false, [])
  else if order.all (fun o => rows.any fun r => decide (r.cid = o)) then
    (true, reorderWrites order)
  else (false, [])

/-- The chapter_id transformation effected by a write sequence, starting from
    the transformation f: each (old, new) write maps a row currently holding
    old to new (ghost function used to reason about applyWrites). -/
def writesFnFrom (f : Int → Int) (ws : List (Int × Int)) : Int → Int :=
  ws.foldl (fun g w => fun c => if g c = w.1 then w.2 else g c) f

/-- The chapter_id transformation effected by a write sequence from the
    initial state. -/
def writesFn (ws : List (Int × Int)) : Int → Int :=
  writesFnFrom id ws

/-- Intended value of writesFn after the first k phase A writes: the rows
    listed among the first k entries of the order hold their negative
    temporaries, the rest still hold their original ids. -/
def expectedA (order : List Int) (k : Nat) (c : Int) : Int :=
  if order.indexOf c < k then -((order.indexOf c : Int) + 1) else c

/-- Intended value of writesFn after all phase A writes and the first j phase
    B writes: listed rows before rank j hold their final 1-indexed position,
    listed rows from rank j on still hold their negative temporaries. -/
def expectedB (order : List Int) (j : Nat) (c : Int) : Int :=
  if order.indexOf c < j then (order.indexOf c : Int) + 1
  else if order.indexOf c < order.length then -((order.indexOf c : Int) + 1)
  else c

/-! ## Orchestrator: backend/orchestrator.py -/

/-- A Python value appearing in the result dicts of the orchestrator. -/
inductive PyVal where
  | bool (b : Bool)
  | nat (n : Nat)
  | str (s : String)
deriving DecidableEq

/-- The result dicts of process_video_subtitles_only, as association lists. -/
def PyDict : Type := List (String × PyVal)

/-- Python truthiness of a dict: true exactly when non-empty. -/
def dictTruthy (d : PyDict) : Bool :=
  !(List.isEmpty d)

/-- Lookup in a result dict. -/
def pyGet (d : PyDict) (k : String) : Option PyVal :=
  (List.find? (fun p => p.1 = k) d).map (·.2)

/-- One subtitle_chunks row (db/subtitle_chunks_crud.py schema as used by the
    orchestrator). -/
structure DBChunk where
  video_id : String
  chunk_id : Nat
  chunk_text : String
  short_title : Option String
  ai_field_1 : Option String
  ai_field_2 : Option String
  ai_field_3 : Option String
deriving DecidableEq

/-- Observable record-store writes issued by an orchestrator run, in order;
    enrichStart marks process_ai_enrichment_only beginning to execute. -/
inductive DBEvent where
  | deleteChunks (video_id : String)
  | bulkInsert (video_id : String) (n : Nat)
  | enrichStart (video_id : String)
  | bulkUpdate (video_id : String) (n : Nat)
deriving DecidableEq

/-- delete_chunks_by_video: remove the video's rows. -/
def delete_chunks_by_video (vid : String) (store : List DBChunk) : List DBChunk :=
  store.filter fun c => !(c.video_id == vid)

/-- process_video_subtitles_only (orchestrator.py lines 150-214).
    The external subtitle extraction (process_video_subtitles) is an input:
    none models no subtitles / extraction failure, some texts the chunk texts
    it produced (the Python falsy test treats none and the empty list alike).
    insertOk models whether the bulk insert succeeds.  Step 1 deletes the
    video's existing chunks before extraction; zero segments then returns the
    failure dict; otherwise the chunks are bulk inserted with 1-indexed ids
    and all AI fields unset. -/
def process_video_subtitles_only (vid : String) (extract : Option (List String))
    (insertOk : Bool) (store : List DBChunk) :
    PyDict × List DBChunk × List DBEvent :=
  let store1 := delete_chunks_by_video vid store
  let ev1 : List DBEvent := [.deleteChunks vid]
  let texts := extract.getD []
  if texts.isEmpty then
    ([("success", .bool false), ("chunk_count", .nat 0),
      ("error", .str "No subtitles available")], store1, ev1)
  else
    let chunks_for_db := texts.enum.map fun p =>
      DBChunk.mk vid (p.1 + 1) p.2 none none none none
    if insertOk then
      ([("success", .bool true), ("chunk_count", .nat texts.length)],
       store1 ++ chunks_for_db, ev1 ++ [.bulkInsert vid texts.length])
    else
      ([("success", .bool false), ("chunk_count", .nat 0),
        ("error", .str "Database save failed")], store1,
       ev1 ++ [.bulkInsert vid texts.length])

/-- Targeted AI-field updates of bulk_update_ai_fields: the i-th enriched
    result (title, field_1, field_2, field_3) is written to the row with
    chunk_id i + 1 of this video, touching no other column. -/
def applyAIUpdates (vid : String)
    (enriched : List (String × String × String × String))
    (store : List DBChunk) : List DBChunk :=
  enriched.enum.foldl
    (fun st p =>
      st.map fun c =>
        if c.video_id == vid && c.chunk_id == p.1 + 1 then
          { c with short_title := some p.2.1, ai_field_1 := some p.2.2.1,
                   ai_field_2 := some p.2.2.2.1, ai_field_3 := some p.2.2.2.2 }
        else c)
    store

/-- process_ai_enrichment_only (orchestrator.py lines 217-307).  enrichF
    models the parallel enrichment of the loaded chunk texts (a pure function
    of them, per the coordinator model above); updateOk models whether the
    bulk field update succeeds.  With no stored chunks the run fails before
    enriching or writing anything. -/
def process_ai_enrichment_only (vid : String)
    (enrichF : List String → List (String × String × String × String))
    (updateOk : Bool) (store : List DBChunk) :
    Bool × List DBChunk × List DBEvent :=
  let ev0 : List DBEvent := [.enrichStart vid]
  let chunks := store.filter fun c => c.video_id == vid
  if chunks.isEmpty then (false, store, ev0)
  else
    let enriched := enrichF (chunks.map (·.chunk_text))
    if updateOk then
      (true, applyAIUpdates vid enriched store,
       ev0 ++ [.bulkUpdate vid enriched.length])
    else (false, store, ev0 ++ [.bulkUpdate vid enriched.length])

/-- process_full_video (orchestrator.py lines 310-337): runs
    process_video_subtitles_only, tests its returned dict with Python
    truthiness (the source's if not success), and otherwise runs
    process_ai_enrichment_only. -/
def process_full_video (vid : String) (extract : Option (List String))
    (insertOk : Bool)
    (enrichF : List String → List (String × String × String × String))
    (updateOk : Bool) (store : List DBChunk) :
    Bool × List DBChunk × List DBEvent :=
  let r1 := process_video_subtitles_only vid extract insertOk store
  if !dictTruthy r1.1 then (false, r1.2.1, r1.2.2)
  else
    let r2 := process_ai_enrichment_only vid enrichF updateOk r1.2.1
    (r2.1, r2.2.1, r1.2.2 ++ r2.2.2)

/-! ## Helper lemmas: retry loop -/

lemma processFieldGo_waits_mem (oracle : AttemptOracle) (rd : Nat) :
    ∀ (fuel attempt : Nat) (waits : List Nat) (w : Nat),
      w ∈ (processFieldGo oracle rd fuel attempt waits).2.1 → w ∈ waits ∨ w = rd := by
  intro fuel
  induction fuel with
  | zero => intro attempt waits w hw; exact Or.inl hw
  | succ f ih =>
    intro attempt waits w hw
    simp only [processFieldGo] at hw
    cases ho : oracle attempt with
    | ok s => rw [ho] at hw; exact Or.inl hw
    | otherError msg => rw [ho] at hw; exact Or.inl hw
    | rateLimited =>
      rw [ho] at hw
      by_cases hf : f = 0
      · rw [if_pos hf] at hw; exact Or.inl hw
      · rw [if_neg hf] at hw
        rcases ih (attempt + 1) (waits ++ [rd]) w hw with h | h
        · rcases List.mem_append.mp h with h | h
          · exact Or.inl h
          · exact Or.inr (List.mem_singleton.mp h)
        · exact Or.inr h

lemma processFieldGo_all_rateLimited (oracle : AttemptOracle) (rd : Nat)
    (h : ∀ k, oracle k = .rateLimited) :
    ∀ (fuel attempt : Nat) (waits : List Nat), 0 < fuel →
      processFieldGo oracle rd fuel attempt waits =
        ("[Rate limit exceeded]", waits ++ List.replicate (fuel - 1) rd, attempt + fuel) := by
  intro fuel
  induction fuel with
  | zero => intro _ _ hf; omega
  | succ f ih =>
    intro attempt waits _
    simp only [processFieldGo, h attempt]
    by_cases hf : f = 0
    · subst hf; simp
    · rw [if_neg hf]
      rw [ih (attempt + 1) (waits ++ [rd]) (Nat.pos_of_ne_zero hf)]
      have h1 : waits ++ [rd] ++ List.replicate (f - 1) rd =
          waits ++ List.replicate (f + 1 - 1) rd := by
        rw [List.append_assoc, List.singleton_append, ← List.replicate_succ]
        have hff : f - 1 + 1 = f + 1 - 1 := by omega
        rw [hff]
      have h2 : attempt + 1 + f = attempt + (f + 1) := by omega
      rw [h1, h2]

/-! ## Helper lemmas: association-list lookups built from key lists -/

lemma findMap_key {β : Type} (g : String → β) :
    ∀ (l : List String) (fn : String), fn ∈ l →
      (l.map fun x => (x, g x)).find? (fun p => p.1 = fn) = some (fn, g fn) := by
  intro l
  induction l with
  | nil => intro fn hfn; exact absurd hfn (List.not_mem_nil fn)
  | cons a t ih =>
    intro fn hfn
    by_cases hax : a = fn
    · subst hax
      simp [List.find?]
    · have hmem : fn ∈ t := by
        rcases List.mem_cons.mp hfn with h | h
        · exact absurd h.symm hax
        · exact h
      simpa [List.find?, hax] using ih fn hmem

/-! ## C6 -/

/-- C6 (amended): for each (segment, field) call, on every rate-limit signal
    the client retries up to max_retries times, sleeping the fixed
    retry_delay before each retry (not an exponential backoff), and any
    non-rate-limit failure is not retried: it is surfaced immediately after a
    single call as a field-level failure value. -/
theorem process_field_retry_policy (oracle : AttemptOracle) (prompt : String)
    (mr rd : Nat) (hp : prompt ≠ "") :
    (∀ w ∈ (process_field oracle prompt mr rd).2.1, w = rd) ∧
    ((∀ k, oracle k = .rateLimited) →
      process_field oracle prompt mr rd =
        ("[Rate limit exceeded]", List.replicate mr rd, mr + 1)) ∧
    (∀ msg, oracle 0 = .otherError msg →
      process_field oracle prompt mr rd = ("[Error: " ++ msg ++ "]", [], 1)) := by
  refine ⟨?_, ?_, ?_⟩
  · intro w hw
    rw [process_field, if_neg hp] at hw
    rcases processFieldGo_waits_mem oracle rd (mr + 1) 0 [] w hw with h | h
    · exact absurd h (List.not_mem_nil w)
    · exact h
  · intro h
    rw [process_field, if_neg hp,
      processFieldGo_all_rateLimited oracle rd h (mr + 1) 0 [] (Nat.succ_pos mr)]
    simp
  · intro msg hmsg
    rw [process_field, if_neg hp]
    simp [processFieldGo, hmsg]

/-- C6 witness: concrete all-rate-limited run with max_retries = 3 and
    retry_delay = 5. -/
theorem process_field_retry_policy_witness :
    process_field (fun _ => GenResult.rateLimited) "p" 3 5 =
      ("[Rate limit exceeded]", List.replicate 3 5, 4) :=
  (process_field_retry_policy (fun _ => GenResult.rateLimited) "p" 3 5
    (by decide)).2.1 (fun _ => rfl)

/-- C6 counterexample: with retry_delay = 5 and max_retries = 3 against an
    always-rate-limited collaborator the sleeps are the constant [5, 5, 5],
    not the exponential schedule initialWait * 2 ^ attempt under either
    attempt numbering. -/
theorem process_field_constant_backoff_counterexample :
    (process_field (fun _ => GenResult.rateLimited) "p" 3 5).2.1 = [5, 5, 5] ∧
    (process_field (fun _ => GenResult.rateLimited) "p" 3 5).2.1 ≠
      [5 * 2 ^ 0, 5 * 2 ^ 1, 5 * 2 ^ 2] ∧
    (process_field (fun _ => GenResult.rateLimited) "p" 3 5).2.1 ≠
      [5 * 2 ^ 1, 5 * 2 ^ 2, 5 * 2 ^ 3] := by decide

/-! ## C10 -/

/-- C10: for every prompt map and every order in which the four field futures
    complete, enrich_chunk returns a dict whose keys are exactly title,
    field_1, field_2, field_3, and a field whose prompt template is empty or
    absent is mapped to the empty string with zero external calls issued. -/
theorem enrich_chunk_exact_fields (oracle : FieldOracle)
    (prompts : String → Option String) (mr rd : Nat) (fieldOrder : List String)
    (h : fieldOrder.Perm fourFields) :
    ((enrich_chunk oracle prompts mr rd fieldOrder).map Prod.fst).Perm fourFields ∧
    (∀ fn ∈ fourFields, (prompts fn).getD "" = "" →
      dictLookup (enrich_chunk oracle prompts mr rd fieldOrder) fn = some "" ∧
      (process_field (oracle fn) ((prompts fn).getD "") mr rd).2.2 = 0) := by
  constructor
  · have : (enrich_chunk oracle prompts mr rd fieldOrder).map Prod.fst = fieldOrder := by
      simp [enrich_chunk, List.map_map, Function.comp_def]
    rw [this]; exact h
  · intro fn hfn hempty
    have hmem : fn ∈ fieldOrder := h.mem_iff.mpr hfn
    constructor
    · rw [dictLookup, enrich_chunk,
        findMap_key (fun x => (process_field (oracle x) ((prompts x).getD "") mr rd).1)
          fieldOrder fn hmem]
      simp [hempty, process_field]
    · simp [hempty, process_field]

/-- C10 witness: a prompt map lacking a template for title yields the empty
    string for title under a scrambled completion order. -/
theorem enrich_chunk_exact_fields_witness :
    dictLookup (enrich_chunk (fun _ => fun _ => GenResult.ok "x")
      (fun fn => if fn = "title" then none else some "P") 3 5
      ["field_3", "title", "field_1", "field_2"]) "title" = some "" :=
  ((enrich_chunk_exact_fields (fun _ => fun _ => GenResult.ok "x")
    (fun fn => if fn = "title" then none else some "P") 3 5
    ["field_3", "title", "field_1", "field_2"] (by decide)).2
    "title" (by decide) (by decide)).1

/-! ## C3 -/

/-- C3 (amended): reorder_chapters validates only that every listed position
    currently exists; with no chapters, or when some listed position matches
    no current chapter, it returns failure and issues no write at all. -/
theorem reorder_validation (rows : List Row) (order : List Int)
    (h : rows = [] ∨ ∃ o ∈ order, ∀ r ∈ rows, r.cid ≠ o) :
    reorder_chapters rows order = (false, []) := by
  rcases h with h | ⟨o, ho, hmiss⟩
  · simp [reorder_chapters, h]
  · by_cases he : rows.isEmpty
    · simp [reorder_chapters, he]
    · have hall : (order.all fun o => rows.any fun r => decide (r.cid = o)) = false := by
        rw [List.all_eq_false]
        refine ⟨o, ho, ?_⟩
        simp only [List.any_eq_true, decide_eq_true_eq, not_exists, not_and]
        intro r hr
        exact hmiss r hr
      simp [reorder_chapters, he, hall]

/-- C3 witness: a listed position (5) that does not exist is rejected with
    no writes. -/
theorem reorder_validation_witness :
    reorder_chapters [⟨1, 0⟩] [5] = (false, []) :=
  reorder_validation [⟨1, 0⟩] [5] (Or.inr ⟨5, by decide, by decide⟩)

/-- C3 counterexample: an order listing position 1 twice (not a permutation
    of the current set {1, 2}) passes validation: the call performs all four
    writes and reports success, instead of failing closed with no writes. -/
theorem reorder_duplicate_accepted :
    reorder_chapters [⟨1, 0⟩, ⟨2, 1⟩] [1, 1] =
      (true, [(1, -1), (1, -2), (-1, 1), (-2, 2)]) ∧
    ¬ ([1, 1] : List Int).Nodup ∧
    (reorder_chapters [⟨1, 0⟩, ⟨2, 1⟩] [1, 1]).2 ≠ [] := by decide

/-! ## C4 -/

/-- C4 (code bug): on a video whose segmentation yields zero segments, the
    failure dict returned by process_video_subtitles_only is truthy, so the
    guard if not success in process_full_video never fires: the run still
    reports failure overall, but the enrichment stage is invoked rather than
    short-circuited. -/
theorem full_pipeline_enrich_invoked_on_empty_segmentation :
    dictTruthy (process_video_subtitles_only "v" none true []).1 = true ∧
    pyGet (process_video_subtitles_only "v" none true []).1 "success" =
      some (.bool false) ∧
    (process_full_video "v" none true (fun _ => []) true []).1 = false ∧
    DBEvent.enrichStart "v" ∈
      (process_full_video "v" none true (fun _ => []) true []).2.2 := by decide

/-! ## C5 -/

/-- C5 (amended): on empty segmentation a subtitles-only run reports failure
    and persists no new segments, but only after having already deleted the
    video's previously persisted chunks: the delete precedes extraction, so
    the prior segments are not left unchanged. -/
theorem segment_only_empty_aborts_after_delete (vid : String)
    (extract : Option (List String)) (insertOk : Bool) (store : List DBChunk)
    (h : extract.getD [] = []) :
    process_video_subtitles_only vid extract insertOk store =
      ([("success", .bool false), ("chunk_count", .nat 0),
        ("error", .str "No subtitles available")],
       delete_chunks_by_video vid store, [.deleteChunks vid]) := by
  simp [process_video_subtitles_only, h]

/-- C5 witness: concrete failing extraction over a store holding one prior
    chunk for the video. -/
theorem segment_only_empty_aborts_after_delete_witness :
    process_video_subtitles_only "v" none true
      [⟨"v", 1, "old", none, none, none, none⟩] =
      ([("success", .bool false), ("chunk_count", .nat 0),
        ("error", .str "No subtitles available")], [], [.deleteChunks "v"]) :=
  segment_only_empty_aborts_after_delete "v" none true
    [⟨"v", 1, "old", none, none, none, none⟩] rfl

/-- C5 counterexample: with a previously persisted chunk and an empty
    segmentation, the run mutates persisted state (the prior chunk is gone),
    contradicting the claim that the run aborts before any mutation. -/
theorem segment_only_empty_mutates_counterexample :
    (process_video_subtitles_only "v" none true
      [⟨"v", 1, "old", none, none, none, none⟩]).2.1 = [] ∧
    (process_video_subtitles_only "v" none true
      [⟨"v", 1, "old", none, none, none, none⟩]).2.1 ≠
      [⟨"v", 1, "old", none, none, none, none⟩] ∧
    (process_video_subtitles_only "v" none true
      [⟨"v", 1, "old", none, none, none, none⟩]).2.2 = [.deleteChunks "v"] := by
  decide

/-! ## Helper lemmas: the coordinator's index-keyed result dict -/

lemma find_results_key {σ : Type} (oracle : BatchOracle)
    (prompts : String → Option String) (mr rd : Nat)
    (fieldOrders : Nat → List String) (chunks : List σ) :
    ∀ (l : List Nat) (i : Nat), i ∈ l → (∀ j ∈ l, j < chunks.length) →
      ((l.filterMap fun j => (chunks.get? j).map fun c =>
          process_chunk oracle prompts mr rd fieldOrders j c).find?
        fun p => p.1 = i) =
      (chunks.get? i).map fun c => process_chunk oracle prompts mr rd fieldOrders i c := by
  intro l
  induction l with
  | nil => intro i hi _; exact absurd hi (List.not_mem_nil i)
  | cons a t ih =>
    intro i hi hall
    have ha : a < chunks.length := hall a (List.mem_cons_self a t)
    obtain ⟨c, hc⟩ : ∃ c, chunks.get? a = some c := ⟨_, List.get?_eq_get ha⟩
    have htall : ∀ j ∈ t, j < chunks.length := fun j hj => hall j (List.mem_cons_of_mem a hj)
    have hred : ((a :: t).filterMap fun j => (chunks.get? j).map fun c =>
        process_chunk oracle prompts mr rd fieldOrders j c) =
        process_chunk oracle prompts mr rd fieldOrders a c ::
          (t.filterMap fun j => (chunks.get? j).map fun c =>
            process_chunk oracle prompts mr rd fieldOrders j c) := by
      rw [List.filterMap_cons, hc]
      simp only [Option.map_some']
    by_cases hai : a = i
    · subst hai
      rw [hred, List.find?_cons_of_pos _ (by simp [process_chunk]), hc]
      rfl
    · have hmem : i ∈ t := by
        rcases List.mem_cons.mp hi with hh | hh
        · exact absurd hh.symm hai
        · exact hh
      rw [hred, List.find?_cons_of_neg _ (by simp [process_chunk, hai])]
      exact ih i hmem htall

/-- Core property of enrich_chunks_parallel: for any completion order that is
    a permutation of the future indices, the returned list has one slot per
    input chunk and slot i holds the enrichment of input chunk i. -/
lemma enrich_chunks_parallel_spec {σ : Type} (oracle : BatchOracle)
    (prompts : String → Option String) (mr rd : Nat)
    (fieldOrders : Nat → List String) (chunks : List σ) (complOrder : List Nat)
    (h : complOrder.Perm (List.range chunks.length)) :
    (enrich_chunks_parallel oracle prompts mr rd fieldOrders chunks complOrder).length
      = chunks.length ∧
    ∀ i (hi : i < chunks.length),
      (enrich_chunks_parallel oracle prompts mr rd fieldOrders chunks complOrder).get? i
        = some (some (chunks.get ⟨i, hi⟩,
            enrich_chunk (oracle i) prompts mr rd (fieldOrders i))) := by
  constructor
  · simp [enrich_chunks_parallel]
  · intro i hi
    have hmem : i ∈ complOrder := h.mem_iff.mpr (List.mem_range.mpr hi)
    have hall : ∀ j ∈ complOrder, j < chunks.length := fun j hj =>
      List.mem_range.mp (h.mem_iff.mp hj)
    have hkey := find_results_key oracle prompts mr rd fieldOrders chunks
      complOrder i hmem hall
    have hrange : (List.range chunks.length).get? i = some i :=
      List.get?_eq_get (by simpa using hi) |>.trans (by simp)
    simp only [enrich_chunks_parallel, List.get?_map, hrange, Option.map_some']
    rw [hkey, List.get?_eq_get hi]
    rfl

/-! ## C1 -/

/-- C1: for every list of input segments and every order in which the
    per-segment futures complete, enrich_chunks_parallel returns a list of
    the same length whose i-th slot is the enrichment result of the i-th
    input segment: callers never observe reordering. -/
theorem enrich_parallel_preserves_order {σ : Type} (oracle : BatchOracle)
    (prompts : String → Option String) (mr rd : Nat)
    (fieldOrders : Nat → List String) (chunks : List σ) (complOrder : List Nat)
    (h : complOrder.Perm (List.range chunks.length)) :
    (enrich_chunks_parallel oracle prompts mr rd fieldOrders chunks complOrder).length
      = chunks.length ∧
    ∀ i (hi : i < chunks.length),
      (enrich_chunks_parallel oracle prompts mr rd fieldOrders chunks complOrder).get? i
        = some (some (chunks.get ⟨i, hi⟩,
            enrich_chunk (oracle i) prompts mr rd (fieldOrders i))) :=
  enrich_chunks_parallel_spec oracle prompts mr rd fieldOrders chunks complOrder h

/-- C1 witness: three chunks completing in the order [2, 0, 1] still fill
    slot 1 with chunk "b". -/
theorem enrich_parallel_preserves_order_witness :
    (enrich_chunks_parallel (fun _ _ _ => GenResult.ok "x") (fun _ => some "P")
      1 2 (fun _ => fourFields) ["a", "b", "c"] [2, 0, 1]).get? 1
      = some (some ("b", enrich_chunk ((fun _ _ _ => GenResult.ok "x") 1)
          (fun _ => some "P") 1 2 fourFields)) :=
  (enrich_parallel_preserves_order (fun _ _ _ => GenResult.ok "x")
    (fun _ => some "P") 1 2 (fun _ => fourFields) ["a", "b", "c"] [2, 0, 1]
    (by decide)).2 1 (by decide)

/-! ## C7 -/

/-- C7: when one (segment, field) pair exhausts its retries, process_field
    returns the failure-sentinel string for that field instead of raising,
    that sentinel appears as the field's value in the segment's result dict,
    and enrich_chunks_parallel still returns a complete result for every
    input segment (each slot i is exactly the enrichment of input segment i,
    a function of segment i's own oracle alone): no field failure aborts the
    batch or affects sibling fields or other segments. -/
theorem enrich_partial_failure_isolated {σ : Type} (oracle : BatchOracle)
    (prompts : String → Option String) (mr rd : Nat)
    (fieldOrders : Nat → List String) (chunks : List σ) (complOrder : List Nat)
    (j : Nat) (f : String)
    (hperm : complOrder.Perm (List.range chunks.length))
    (hfo : (fieldOrders j).Perm fourFields)
    (hf : f ∈ fourFields) (hp : (prompts f).getD "" ≠ "")
    (hrl : ∀ k, oracle j f k = .rateLimited) :
    (process_field (oracle j f) ((prompts f).getD "") mr rd).1
      = "[Rate limit exceeded]" ∧
    dictLookup (enrich_chunk (oracle j) prompts mr rd (fieldOrders j)) f
      = some "[Rate limit exceeded]" ∧
    (enrich_chunks_parallel oracle prompts mr rd fieldOrders chunks complOrder).length
      = chunks.length ∧
    ∀ i (hi : i < chunks.length),
      (enrich_chunks_parallel oracle prompts mr rd fieldOrders chunks complOrder).get? i
        = some (some (chunks.get ⟨i, hi⟩,
            enrich_chunk (oracle i) prompts mr rd (fieldOrders i))) := by
  have hsent : (process_field (oracle j f) ((prompts f).getD "") mr rd).1
      = "[Rate limit exceeded]" := by
    rw [process_field, if_neg hp,
      processFieldGo_all_rateLimited (oracle j f) rd hrl (mr + 1) 0 [] (Nat.succ_pos mr)]
  refine ⟨hsent, ?_, enrich_chunks_parallel_spec oracle prompts mr rd fieldOrders
    chunks complOrder hperm⟩
  have hmem : f ∈ fieldOrders j := hfo.mem_iff.mpr hf
  rw [dictLookup, enrich_chunk,
    findMap_key (fun x => (process_field (oracle j x) ((prompts x).getD "") mr rd).1)
      (fieldOrders j) f hmem]
  simp [hsent]

/-- C7 witness: an all-rate-limited collaborator still yields the sentinel
    for title in the segment's result dict. -/
theorem enrich_partial_failure_isolated_witness :
    dictLookup (enrich_chunk ((fun _ _ _ => GenResult.rateLimited) 1)
      (fun _ => some "P") 1 2 fourFields) "title" = some "[Rate limit exceeded]" :=
  (enrich_partial_failure_isolated (fun _ _ _ => GenResult.rateLimited)
    (fun _ => some "P") 1 2 (fun _ => fourFields) ["a", "b"] [1, 0] 1 "title"
    (by decide) (by decide) (by decide) (by decide) (fun _ => rfl)).2.1

/-! ## Helper lemmas: duration-mode start times -/

lemma mergeLastD_map_start {α : Type} :
    ∀ (chunks : List (DChunk α)) (es : List (Entry α)) (ce : Nat),
      (mergeLastD chunks es ce).map DChunk.start_time = chunks.map DChunk.start_time := by
  intro chunks
  induction chunks with
  | nil => intro es ce; rfl
  | cons c rest ih =>
    intro es ce
    cases rest with
    | nil => rfl
    | cons c2 r2 => simp [mergeLastD, ih es ce]

lemma durGo_starts {α : Type} (entries : List (Entry α))
    (video_end target overlap min_final : Nat) :
    ∀ (fuel n : Nat) (chunks : List (DChunk α)) (js : List Nat),
      js.Pairwise (· < ·) → (∀ j ∈ js, j < n) →
      chunks.map DChunk.start_time = js.map (· * target) →
      ∃ js2 : List Nat, js2.Pairwise (· < ·) ∧ (∀ j ∈ js2, j < n + fuel) ∧
        (durGo entries video_end target overlap min_final fuel n chunks).map
          DChunk.start_time = js2.map (· * target) := by
  intro fuel
  induction fuel with
  | zero =>
    intro n chunks js h1 h2 h3
    exact ⟨js, h1, fun j hj => by have := h2 j hj; omega, h3⟩
  | succ f ih =>
    intro n chunks js h1 h2 h3
    have hweak : ∀ j ∈ js, j < n + 1 := fun j hj => by have := h2 j hj; omega
    have happ : (js ++ [n]).Pairwise (· < ·) := by
      rw [List.pairwise_append]
      exact ⟨h1, List.pairwise_singleton _ n,
        fun a ha b hb => by rw [List.mem_singleton.mp hb]; exact h2 a ha⟩
    have happb : ∀ j ∈ js ++ [n], j < n + 1 := by
      intro j hj
      rcases List.mem_append.mp hj with hj | hj
      · have := h2 j hj; omega
      · rw [List.mem_singleton.mp hj]; omega
    have hces : ∀ ces : List (Entry α), ∀ ce : Nat,
        ((chunks ++ [(⟨(ces.map Entry.text).flatten, (ces.map Entry.text).flatten.length,
            ces.length, n * target, ce, ce - n * target⟩ : DChunk α)]).map DChunk.start_time)
          = (js ++ [n]).map (· * target) := by
      intro ces ce
      simp [h3]
    by_cases hguard : n * target < video_end
    · simp only [durGo, if_pos hguard]
      split
      · split
        · obtain ⟨js2, a, b, c⟩ := ih (n + 1)
            (mergeLastD chunks
              (entries.filter fun e =>
                decide (e.start < min (n * target + target + overlap) video_end) &&
                decide (n * target < e.stop))
              (min (n * target + target + overlap) video_end))
            js h1 hweak (by rw [mergeLastD_map_start]; exact h3)
          exact ⟨js2, a, fun j hj => by have := b j hj; omega, c⟩
        · obtain ⟨js2, a, b, c⟩ := ih (n + 1)
            (chunks ++ [⟨((entries.filter fun e =>
                  decide (e.start < min (n * target + target + overlap) video_end) &&
                  decide (n * target < e.stop)).map Entry.text).flatten,
                ((entries.filter fun e =>
                  decide (e.start < min (n * target + target + overlap) video_end) &&
                  decide (n * target < e.stop)).map Entry.text).flatten.length,
                (entries.filter fun e =>
                  decide (e.start < min (n * target + target + overlap) video_end) &&
                  decide (n * target < e.stop)).length,
                n * target, min (n * target + target + overlap) video_end,
                min (n * target + target + overlap) video_end - n * target⟩])
            (js ++ [n]) happ happb (hces _ _)
          exact ⟨js2, a, fun j hj => by have := b j hj; omega, c⟩
      · obtain ⟨js2, a, b, c⟩ := ih (n + 1) chunks js h1 hweak h3
        exact ⟨js2, a, fun j hj => by have := b j hj; omega, c⟩
    · simp only [durGo, if_neg hguard]
      exact ⟨js, h1, fun j hj => by have := h2 j hj; omega, h3⟩

lemma pairwise_lt_le_get :
    ∀ (l : List Nat) (c : Nat), (∀ x ∈ l, c ≤ x) → l.Pairwise (· < ·) →
      ∀ i (h : i < l.length), c + i ≤ l.get ⟨i, h⟩ := by
  intro l
  induction l with
  | nil => intro c _ _ i h; simp at h
  | cons a t ih =>
    intro c hc hp i h
    cases i with
    | zero => simpa using hc a (List.mem_cons_self a t)
    | succ i2 =>
      have hpc := List.pairwise_cons.mp hp
      have h2 : ∀ x ∈ t, a + 1 ≤ x := fun x hx => hpc.1 x hx
      have h3 := ih (a + 1) h2 hpc.2 i2 (by simpa using h)
      have hc2 : c ≤ a := hc a (List.mem_cons_self a t)
      have hgc : (a :: t).get ⟨i2 + 1, h⟩ = t.get ⟨i2, by simpa using h⟩ := rfl
      rw [hgc]
      omega

/-! ## C9 -/

/-- C9 (amended): in duration-bounded mode every emitted segment's nominal
    start time is an exact multiple j * targetDuration of the interval index
    j, and the k-th emitted segment's multiple satisfies j at least k (the
    indices are strictly increasing): segment boundaries are absolute
    functions of elapsed video time; equality j = k can fail because an
    interval containing no caption entry emits no segment while still
    consuming its interval index. -/
theorem duration_segment_starts_absolute {α : Type} (entries : List (Entry α))
    (target overlap min_final : Nat) :
    ∀ k (hk : k < (chunkByDuration entries target overlap min_final).length),
      ∃ j, k ≤ j ∧
        ((chunkByDuration entries target overlap min_final).get ⟨k, hk⟩).start_time
          = j * target := by
  intro k hk
  cases hl : entries.getLast? with
  | none =>
    rw [chunkByDuration, hl] at hk
    simp at hk
  | some last =>
    have hcbd : chunkByDuration entries target overlap min_final =
        durGo entries last.stop target overlap min_final (last.stop + 1) 0 [] := by
      rw [chunkByDuration, hl]
    obtain ⟨js2, hpw, _, hmap⟩ := durGo_starts entries last.stop target overlap
      min_final (last.stop + 1) 0 [] [] (List.Pairwise.nil) (by simp) (by simp)
    rw [← hcbd] at hmap
    have hlen : (chunkByDuration entries target overlap min_final).length
        = js2.length := by
      have := congrArg List.length hmap
      simpa using this
    have hk2 : k < js2.length := hlen ▸ hk
    refine ⟨js2.get ⟨k, hk2⟩, ?_, ?_⟩
    · have := pairwise_lt_le_get js2 0 (fun _ _ => Nat.zero_le _) hpw k hk2
      omega
    · have hq := congrArg (fun l => l.get? k) hmap
      simp only [List.get?_map] at hq
      rw [List.get?_eq_get hk, List.get?_eq_get hk2] at hq
      simpa using hq

/-- C9 witness: a single entry in the first interval gives a first segment
    starting at 0 * targetDuration. -/
theorem duration_segment_starts_absolute_witness :
    ∃ j, 0 ≤ j ∧
      ((chunkByDuration [(⟨0, 1, [7]⟩ : Entry Nat)] 10 0 0).get ⟨0, by decide⟩).start_time
        = j * 10 :=
  duration_segment_starts_absolute [(⟨0, 1, [7]⟩ : Entry Nat)] 10 0 0 0 (by decide)

/-- C9 counterexample: with sparse captions (entries at 0-1s and 100-101s,
    targetDuration 10) the second emitted segment starts at 100, not at
    1 * targetDuration = 10: intervals with no captions emit nothing, so the
    k-th emitted segment need not start at k * targetDuration. -/
theorem duration_start_time_counterexample :
    ((chunkByDuration [(⟨0, 1, [7]⟩ : Entry Nat), ⟨100, 101, [8]⟩] 10 0 0).map
        DChunk.start_time).get? 1 = some 100 ∧ (100 : Nat) ≠ 1 * 10 := by decide

/-! ## Helper lemmas: word-bounded coverage -/

lemma splitGo_flatten {α : Type} (wps : Nat) (hw : 0 < wps) :
    ∀ (fuel : Nat) (ws : List α), ws.length ≤ fuel →
      (splitGo wps fuel ws).flatten = ws := by
  intro fuel
  induction fuel with
  | zero =>
    intro ws hws
    have : ws = [] := List.eq_nil_of_length_eq_zero (Nat.le_zero.mp hws)
    subst this
    rfl
  | succ f ih =>
    intro ws hws
    cases ws with
    | nil => rfl
    | cons a l =>
      have hdrop : ((a :: l).drop wps).length ≤ f := by
        rw [List.length_drop]
        simp only [List.length_cons] at hws ⊢
        omega
      simp only [splitGo, List.flatten_cons, ih ((a :: l).drop wps) hdrop]
      exact List.take_append_drop wps (a :: l)

lemma overlapGo_cnt {α : Type} (ow : Nat) :
    ∀ (l acc : List (List α)) (cnt : Nat), cnt = acc.flatten.length →
      (overlapGo ow l acc cnt).2 = ((overlapGo ow l acc cnt).1.flatten).length := by
  intro l
  induction l with
  | nil => intro acc cnt h; exact h
  | cons s rest ih =>
    intro acc cnt h
    by_cases hle : cnt + s.length ≤ ow
    · simp only [overlapGo, if_pos hle]
      exact ih (s :: acc) (cnt + s.length) (by simp [h]; omega)
    · simp only [overlapGo, if_neg hle]
      exact h

lemma overlapGo_le {α : Type} (ow : Nat) :
    ∀ (l acc : List (List α)) (cnt : Nat), cnt ≤ ow →
      (overlapGo ow l acc cnt).2 ≤ ow := by
  intro l
  induction l with
  | nil => intro acc cnt h; exact h
  | cons s rest ih =>
    intro acc cnt h
    by_cases hle : cnt + s.length ≤ ow
    · simp only [overlapGo, if_pos hle]
      exact ih (s :: acc) (cnt + s.length) hle
    · simp only [overlapGo, if_neg hle]
      exact h

lemma take_one_append_prop {β : Type} (os : List β) (x : β) (P : β → Prop)
    (hfirst : ∀ o ∈ os.take 1, P o) (hx : os = [] → P x) :
    ∀ o ∈ (os ++ [x]).take 1, P o := by
  cases os with
  | nil => intro o ho; simp at ho; rw [ho]; exact hx rfl
  | cons a t =>
    intro o ho
    simp at ho
    rw [ho]
    exact hfirst a (by simp)

lemma droppedConcat_snoc {α : Type} (os : List Nat) (chunks : List (Chunk α))
    (seed : Nat) (c : Chunk α) (hlen : os.length = chunks.length) :
    droppedConcat (os ++ [seed]) (chunks ++ [c]) =
      droppedConcat os chunks ++ c.text.drop seed := by
  rw [droppedConcat, droppedConcat, List.zipWith_append _ _ _ _ _ hlen]
  simp

lemma closeChunk_inv {α : Type} (ow target : Nat) (consumed : List α) (st : WState α)
    (h : WInv ow consumed st) : WInv ow consumed (closeChunk ow st) := by
  obtain ⟨os, seed, hlen, hbound, hfirst, hempty, hseedle, hseedow, hcnt, hconcat⟩ := h
  have hov2 : (overlapGo ow st.current.reverse [] 0).2
      = ((overlapGo ow st.current.reverse [] 0).1.flatten).length :=
    overlapGo_cnt ow st.current.reverse [] 0 (by simp)
  refine ⟨os ++ [seed], (overlapGo ow st.current.reverse [] 0).2,
    ?_, ?_, ?_, ?_, ?_, ?_, ?_, ?_⟩
  · simp [closeChunk, hlen]
  · intro o hob
    rcases List.mem_append.mp hob with hh | hh
    · exact hbound o hh
    · rw [List.mem_singleton.mp hh]; exact hseedow
  · refine take_one_append_prop os seed (fun o => o = 0) hfirst ?_
    intro hos
    apply hempty
    apply List.eq_nil_of_length_eq_zero
    rw [← hlen, hos]
    rfl
  · intro hcc
    exact absurd hcc (by simp [closeChunk])
  · show (overlapGo ow st.current.reverse [] 0).2 ≤ _
    rw [hov2]
    exact Nat.le_refl _
  · exact overlapGo_le ow st.current.reverse [] 0 (Nat.zero_le ow)
  · exact hov2
  · show droppedConcat (os ++ [seed])
        (st.chunks ++ [⟨st.current.flatten, st.cnt, st.current.length⟩]) ++
        ((overlapGo ow st.current.reverse [] 0).1.flatten).drop
          (overlapGo ow st.current.reverse [] 0).2 = consumed
    rw [hov2, List.drop_length, List.append_nil,
      droppedConcat_snoc os st.chunks seed _ hlen]
    exact hconcat

lemma appendSentence_inv {α : Type} (ow : Nat) (consumed : List α) (st : WState α)
    (s : List α) (h : WInv ow consumed st) :
    WInv ow (consumed ++ s)
      (⟨st.chunks, st.current ++ [s], st.cnt + s.length⟩ : WState α) := by
  obtain ⟨os, seed, hlen, hbound, hfirst, hempty, hseedle, hseedow, hcnt, hconcat⟩ := h
  have hflat : (st.current ++ [s]).flatten = st.current.flatten ++ s := by simp
  refine ⟨os, seed, hlen, hbound, hfirst, hempty, ?_, hseedow, ?_, ?_⟩
  · show seed ≤ (st.current ++ [s]).flatten.length
    rw [hflat, List.length_append]
    omega
  · show st.cnt + s.length = (st.current ++ [s]).flatten.length
    rw [hflat, List.length_append, hcnt]
  · show droppedConcat os st.chunks ++ ((st.current ++ [s]).flatten).drop seed
        = consumed ++ s
    rw [hflat, List.drop_append_of_le_length hseedle, ← List.append_assoc, hconcat]

lemma chunkStep_inv {α : Type} (target max_w ow : Nat) (consumed : List α)
    (st : WState α) (s : List α) (h : WInv ow consumed st) :
    WInv ow (consumed ++ s) (chunkStep target max_w ow st s) := by
  rw [chunkStep]
  set st1 := if max_w < st.cnt + s.length && !st.current.isEmpty
    then closeChunk ow st else st with hst1
  have h1 : WInv ow consumed st1 := by
    rw [hst1]
    by_cases hc : max_w < st.cnt + s.length && !st.current.isEmpty
    · rw [if_pos hc]; exact closeChunk_inv ow target consumed st h
    · rw [if_neg hc]; exact h
  have h2 : WInv ow (consumed ++ s)
      (⟨st1.chunks, st1.current ++ [s], st1.cnt + s.length⟩ : WState α) :=
    appendSentence_inv ow consumed st1 s h1
  by_cases ht : target ≤ st1.cnt + s.length
  · rw [if_pos ht]
    exact closeChunk_inv ow target (consumed ++ s) _ h2
  · rw [if_neg ht]
    exact h2

lemma foldl_inv {α : Type} (target max_w ow : Nat) :
    ∀ (sentences : List (List α)) (st : WState α) (consumed : List α),
      WInv ow consumed st →
      WInv ow (consumed ++ sentences.flatten)
        (sentences.foldl (chunkStep target max_w ow) st) := by
  intro sentences
  induction sentences with
  | nil => intro st consumed h; simpa using h
  | cons s rest ih =>
    intro st consumed h
    have := ih (chunkStep target max_w ow st s) (consumed ++ s)
      (chunkStep_inv target max_w ow consumed st s h)
    simpa [List.append_assoc] using this

lemma chunkFinish_inv {α : Type} (ow mf : Nat) (consumed : List α) (st : WState α)
    (hinv : WInv ow consumed st)
    (hnm : (!st.current.isEmpty && decide (st.cnt < mf) && !st.chunks.isEmpty)
      = false) :
    ∃ os : List Nat, os.length = (chunkFinish mf st).length ∧
      (∀ o ∈ os, o ≤ ow) ∧ (∀ o ∈ os.take 1, o = 0) ∧
      droppedConcat os (chunkFinish mf st) = consumed := by
  obtain ⟨os, seed, hlen, hbound, hfirst, hempty, hseedle, hseedow, hcnt, hconcat⟩ := hinv
  by_cases hcur : st.current.isEmpty
  · have hc0 : st.current = [] := List.isEmpty_iff.mp hcur
    refine ⟨os, ?_, hbound, hfirst, ?_⟩
    · rw [chunkFinish, hcur]
      simpa using hlen
    · rw [chunkFinish, hcur]
      simp only [Bool.not_true, Bool.false_eq_true, if_false]
      rw [← hconcat, hc0]
      simp
  · have hnm2 : ¬(st.cnt < mf ∧ st.chunks ≠ []) := by
      rintro ⟨hlt, hne⟩
      have : (!st.current.isEmpty && decide (st.cnt < mf) && !st.chunks.isEmpty)
          = true := by
        simp [hcur, hlt, hne]
      rw [this] at hnm
      simp at hnm
    have hcond : (mf ≤ st.cnt || st.chunks.isEmpty) = true := by
      by_cases hmfle : mf ≤ st.cnt
      · simp [hmfle]
      · have hce : st.chunks = [] := by
          by_contra hne
          exact hnm2 ⟨by omega, hne⟩
        simp [hce]
    have hfin : chunkFinish mf st =
        st.chunks ++ [⟨st.current.flatten, st.cnt, st.current.length⟩] := by
      rw [chunkFinish]
      have hcur2 : (!st.current.isEmpty) = true := by simp [hcur]
      rw [hcur2, hcond]
      simp
    refine ⟨os ++ [seed], ?_, ?_, ?_, ?_⟩
    · rw [hfin]
      simp [hlen]
    · intro o hob
      rcases List.mem_append.mp hob with hh | hh
      · exact hbound o hh
      · rw [List.mem_singleton.mp hh]; exact hseedow
    · refine take_one_append_prop os seed (fun o => o = 0) hfirst ?_
      intro hos
      apply hempty
      apply List.eq_nil_of_length_eq_zero
      rw [← hlen, hos]
      rfl
    · rw [hfin, droppedConcat_snoc os st.chunks seed _ hlen]
      exact hconcat

/-! ## C8 -/

/-- C8 (amended): for every input text and valid parameters, whenever the
    small-tail merge does not fire, there are per-chunk overlap-prefix sizes
    (each at most overlapWords, zero for the first chunk) such that dropping
    each emitted chunk's overlap prefix and concatenating in order
    reconstructs the original word sequence exactly; when the merge fires the
    overlap seeded into the trailing chunk is duplicated inside the merged
    final chunk, so exact reconstruction fails (see the counterexample). -/
theorem chunk_coverage_no_merge {α : Type} (words : List α)
    (target max_w ow mf : Nat)
    (h0 : 0 < ow) (h1 : ow < target) (h2 : target ≤ max_w) (h3 : 0 < mf)
    (hm : mergeFires (splitIntoSentences words 40) target max_w ow mf = false) :
    ∃ os : List Nat,
      os.length = (chunkText words target max_w ow mf).length ∧
      (∀ o ∈ os, o ≤ ow) ∧ (∀ o ∈ os.take 1, o = 0) ∧
      droppedConcat os (chunkText words target max_w ow mf) = words := by
  have hinit : WInv ow ([] : List α) (⟨[], [], 0⟩ : WState α) := by
    exact ⟨[], 0, rfl, by simp, by simp, fun _ => rfl, by simp, by simp, rfl,
      by simp [droppedConcat]⟩
  have hfold := foldl_inv target max_w ow (splitIntoSentences words 40)
    ⟨[], [], 0⟩ [] hinit
  rw [List.nil_append] at hfold
  have hflat : (splitIntoSentences words 40).flatten = words :=
    splitGo_flatten 40 (by omega) words.length words (Nat.le_refl _)
  rw [hflat] at hfold
  have hnm := hm
  rw [mergeFires] at hnm
  have := chunkFinish_inv ow mf words _ hfold hnm
  simpa [chunkText, chunkByWords] using this

/-- C8 witness: a 3-word text in one pseudo-sentence with target 2, max 2,
    overlap 1, minFinal 1. -/
theorem chunk_coverage_no_merge_witness :
    mergeFires (splitIntoSentences (List.range 3) 40) 2 2 1 1 = false ∧
    ∃ os : List Nat,
      os.length = (chunkText (List.range 3) 2 2 1 1).length ∧
      (∀ o ∈ os, o ≤ 1) ∧ (∀ o ∈ os.take 1, o = 0) ∧
      droppedConcat os (chunkText (List.range 3) 2 2 1 1) = List.range 3 :=
  ⟨by decide, chunk_coverage_no_merge (List.range 3) 2 2 1 1 (by decide)
    (by decide) (by decide) (by decide) (by decide)⟩

/-- C8 counterexample: a 90-word text with targetWords 41, maxWords 80,
    overlapWords 40, minFinalWords 50 (valid parameters) triggers the
    small-tail merge, which re-appends the 10-word overlap already present at
    the end of the second chunk: the emitted chunks carry 80 + 60 = 140 words
    while at most 40 words per later chunk are declared overlap, so no choice
    of overlap prefixes reconstructs the 90 original words. -/
theorem chunk_coverage_counterexample :
    ¬ ∃ os : List Nat,
      os.length = (chunkText (List.range 90) 41 80 40 50).length ∧
      (∀ o ∈ os, o ≤ 40) ∧ (∀ o ∈ os.take 1, o = 0) ∧
      droppedConcat os (chunkText (List.range 90) 41 80 40 50) = List.range 90 := by
  rintro ⟨os, hlen, hb, h1, heq⟩
  have hc : (chunkText (List.range 90) 41 80 40 50).map (fun c => c.text.length)
      = [80, 60] := by decide
  have hlc : (chunkText (List.range 90) 41 80 40 50).length = 2 := by
    have := congrArg List.length hc
    simpa using this
  rw [hlc] at hlen
  obtain ⟨a, b, hos⟩ := List.length_eq_two.mp hlen
  subst hos
  obtain ⟨c1, c2, hch⟩ := List.length_eq_two.mp hlc
  rw [hch] at hc heq
  obtain ⟨hc1, hc2⟩ : c1.text.length = 80 ∧ c2.text.length = 60 := by
    simpa using hc
  have ha : a = 0 := h1 a (by simp)
  have hble : b ≤ 40 := hb b (by simp)
  have hlen2 := congrArg List.length heq
  rw [droppedConcat] at hlen2
  simp [List.length_drop, hc1, hc2, ha] at hlen2
  omega

/-! ## Helper lemmas: two-phase reorder -/

lemma applyWrites_cons (w : Int × Int) (ws : List (Int × Int)) (rows : List Row) :
    applyWrites (w :: ws) rows = applyWrites ws (updPos w.1 w.2 rows) := rfl

lemma applyWrites_map : ∀ (ws : List (Int × Int)) (rows : List Row) (f : Int → Int),
    applyWrites ws (rows.map fun r => ⟨f r.cid, r.tag⟩) =
      rows.map fun r => ⟨writesFnFrom f ws r.cid, r.tag⟩ := by
  intro ws
  induction ws with
  | nil => intro rows f; rfl
  | cons w ws2 ih =>
    intro rows f
    rw [applyWrites_cons]
    have hupd : updPos w.1 w.2 (rows.map fun r => ⟨f r.cid, r.tag⟩) =
        rows.map fun r => ⟨(fun c => if f c = w.1 then w.2 else f c) r.cid, r.tag⟩ := by
      rw [updPos, List.map_map]
      apply List.map_congr_left
      intro r _
      by_cases hp : f r.cid = w.1 <;> simp [hp]
    rw [hupd]
    exact ih rows (fun c => if f c = w.1 then w.2 else f c)

lemma applyWrites_eq (ws : List (Int × Int)) (rows : List Row) :
    applyWrites ws rows = rows.map fun r => ⟨writesFn ws r.cid, r.tag⟩ := by
  have h2 : rows.map (fun r => (⟨id r.cid, r.tag⟩ : Row)) = rows := List.map_id rows
  calc applyWrites ws rows
      = applyWrites ws (rows.map fun r => ⟨id r.cid, r.tag⟩) := by rw [h2]
    _ = rows.map fun r => ⟨writesFnFrom id ws r.cid, r.tag⟩ := applyWrites_map ws rows id
    _ = rows.map fun r => ⟨writesFn ws r.cid, r.tag⟩ := rfl

lemma writesFnFrom_append (f : Int → Int) (ws1 ws2 : List (Int × Int)) :
    writesFnFrom f (ws1 ++ ws2) = writesFnFrom (writesFnFrom f ws1) ws2 := by
  rw [writesFnFrom, writesFnFrom, writesFnFrom, List.foldl_append]

lemma writesFnFrom_snoc (f : Int → Int) (ws : List (Int × Int)) (w : Int × Int) :
    writesFnFrom f (ws ++ [w]) =
      fun c => if writesFnFrom f ws c = w.1 then w.2 else writesFnFrom f ws c := by
  rw [writesFnFrom_append]
  rfl

lemma phaseA_length : ∀ (order : List Int) (i : Nat),
    (phaseAWritesFrom i order).length = order.length := by
  intro order
  induction order with
  | nil => intro i; rfl
  | cons o rest ih => intro i; simp [phaseAWritesFrom, ih]

lemma phaseB_length : ∀ (order : List Int) (i : Nat),
    (phaseBWritesFrom i order).length = order.length := by
  intro order
  induction order with
  | nil => intro i; rfl
  | cons o rest ih => intro i; simp [phaseBWritesFrom, ih]

lemma phaseA_get? : ∀ (order : List Int) (i k : Nat),
    (phaseAWritesFrom i order).get? k =
      (order.get? k).map fun o => (o, -(((i + k : Nat) : Int) + 1)) := by
  intro order
  induction order with
  | nil => intro i k; rfl
  | cons o rest ih =>
    intro i k
    cases k with
    | zero => simp [phaseAWritesFrom]
    | succ k2 =>
      simp only [phaseAWritesFrom, List.get?_cons_succ]
      rw [ih (i + 1) k2]
      have hik : i + 1 + k2 = i + (k2 + 1) := by omega
      rw [hik]

lemma phaseB_get? : ∀ (order : List Int) (i k : Nat),
    (phaseBWritesFrom i order).get? k =
      (order.get? k).map fun _ =>
        (-(((i + k : Nat) : Int) + 1), ((i + k : Nat) : Int) + 1) := by
  intro order
  induction order with
  | nil => intro i k; rfl
  | cons o rest ih =>
    intro i k
    cases k with
    | zero => simp [phaseBWritesFrom]
    | succ k2 =>
      simp only [phaseBWritesFrom, List.get?_cons_succ]
      rw [ih (i + 1) k2]
      have hik : i + 1 + k2 = i + (k2 + 1) := by omega
      rw [hik]

lemma writesFnA (order : List Int) (hnd : order.Nodup) (hpos : ∀ o ∈ order, 0 < o) :
    ∀ k, k ≤ order.length → ∀ c : Int, 0 < c →
      writesFn ((phaseAWritesFrom 0 order).take k) c = expectedA order k c := by
  intro k
  induction k with
  | zero =>
    intro _ c _
    rw [List.take_zero, expectedA, if_neg (by omega)]
    rfl
  | succ k2 ih =>
    intro hk c hc
    have hk2 : k2 ≤ order.length := by omega
    have hklt : k2 < order.length := by omega
    have hgetA : (phaseAWritesFrom 0 order)[k2]? =
        some (order.get ⟨k2, hklt⟩, -((k2 : Int) + 1)) := by
      rw [← List.get?_eq_getElem?, phaseA_get?, List.get?_eq_get hklt]
      simp
    rw [List.take_succ, hgetA]
    simp only [Option.toList_some]
    simp only [writesFn, writesFnFrom_snoc]
    have hihc := ih hk2 c hc
    rw [writesFn] at hihc
    rw [hihc]
    by_cases hik : order.indexOf c < k2
    · have hA2 : expectedA order k2 c = -((order.indexOf c : Int) + 1) := by
        rw [expectedA, if_pos hik]
      have hO : (0 : Int) < order.get ⟨k2, hklt⟩ :=
        hpos _ (order.get_mem k2 hklt)
      have hne : expectedA order k2 c ≠ order.get ⟨k2, hklt⟩ := by
        rw [hA2]
        intro hequ
        omega
      rw [if_neg hne, hA2, expectedA, if_pos (by omega : order.indexOf c < k2 + 1)]
    · have hA2 : expectedA order k2 c = c := by rw [expectedA, if_neg hik]
      rw [hA2]
      by_cases hco : c = order.get ⟨k2, hklt⟩
      · have hidx : order.indexOf c = k2 := by
          rw [hco]
          exact List.get_indexOf hnd ⟨k2, hklt⟩
        rw [if_pos hco, expectedA, if_pos (by omega : order.indexOf c < k2 + 1), hidx]
      · have hnotlt : ¬ (order.indexOf c < k2 + 1) := by
          intro hlt
          have hieq : order.indexOf c = k2 := by omega
          have hclen : order.indexOf c < order.length := by omega
          apply hco
          have he := List.indexOf_get hclen
          rw [← he]
          congr 1
          exact Fin.mk_eq_mk.mpr hieq
        rw [if_neg hco, expectedA, if_neg hnotlt]

lemma take_reorder_split (order : List Int) (j : Nat) :
    (reorderWrites order).take (order.length + j) =
      phaseAWritesFrom 0 order ++ (phaseBWritesFrom 0 order).take j := by
  rw [reorderWrites, List.take_append_eq_append_take,
    List.take_of_length_le (by rw [phaseA_length]; omega)]
  have harg : order.length + j - (phaseAWritesFrom 0 order).length = j := by
    rw [phaseA_length]
    omega
  rw [harg]

lemma writesFnB (order : List Int) (hnd : order.Nodup) (hpos : ∀ o ∈ order, 0 < o) :
    ∀ j, j ≤ order.length → ∀ c : Int, 0 < c →
      writesFn ((reorderWrites order).take (order.length + j)) c
        = expectedB order j c := by
  intro j
  induction j with
  | zero =>
    intro _ c hc
    rw [take_reorder_split order 0, List.take_zero, List.append_nil]
    have hA : phaseAWritesFrom 0 order
        = (phaseAWritesFrom 0 order).take order.length :=
      (List.take_of_length_le (by rw [phaseA_length])).symm
    rw [hA, writesFnA order hnd hpos order.length (Nat.le_refl _) c hc,
      expectedA, expectedB]
    rw [if_neg (by omega : ¬ order.indexOf c < 0)]
  | succ j2 ih =>
    intro hj c hc
    have hj2 : j2 ≤ order.length := by omega
    have hjlt : j2 < order.length := by omega
    rw [take_reorder_split order (j2 + 1)]
    have hgetB : (phaseBWritesFrom 0 order)[j2]? =
        some (-((j2 : Int) + 1), (j2 : Int) + 1) := by
      rw [← List.get?_eq_getElem?, phaseB_get?, List.get?_eq_get hjlt]
      simp
    rw [List.take_succ, hgetB]
    simp only [Option.toList_some]
    rw [← List.append_assoc]
    simp only [writesFn, writesFnFrom_snoc]
    have hpre : writesFnFrom id
        (phaseAWritesFrom 0 order ++ (phaseBWritesFrom 0 order).take j2) c
        = expectedB order j2 c := by
      rw [← take_reorder_split order j2]
      exact ih hj2 c hc
    rw [hpre]
    rcases Nat.lt_trichotomy (order.indexOf c) j2 with hlt | heq | hgt
    · have hBj : expectedB order j2 c = (order.indexOf c : Int) + 1 := by
        rw [expectedB, if_pos hlt]
      rw [hBj, if_neg (by omega), expectedB, if_pos (by omega)]
    · have hBj : expectedB order j2 c = -((order.indexOf c : Int) + 1) := by
        rw [expectedB, if_neg (by omega), if_pos (by omega)]
      rw [hBj, if_pos (by omega), expectedB, if_pos (by omega)]
      omega
    · have hBj : expectedB order j2 c =
          if order.indexOf c < order.length
          then -((order.indexOf c : Int) + 1) else c := by
        rw [expectedB, if_neg (by omega)]
      by_cases hin : order.indexOf c < order.length
      · rw [hBj, if_pos hin, if_neg (by omega), expectedB, if_neg (by omega),
          if_pos hin]
      · rw [hBj, if_neg hin, if_neg (by omega), expectedB, if_neg (by omega),
          if_neg hin]

lemma indexOf_eq_imp_eq (order : List Int) (c c2 : Int)
    (hcl : order.indexOf c < order.length) (hc2l : order.indexOf c2 < order.length)
    (h : order.indexOf c = order.indexOf c2) : c = c2 := by
  have e1 := List.indexOf_get hcl
  have e2 := List.indexOf_get hc2l
  rw [← e1, ← e2]
  congr 1
  exact Fin.mk_eq_mk.mpr h

lemma expectedA_inj (order : List Int) (hpos : ∀ o ∈ order, 0 < o)
    (k : Nat) (c c2 : Int) (hc : c ∈ order) (hc2 : c2 ∈ order)
    (h : expectedA order k c = expectedA order k c2) : c = c2 := by
  have hcl : order.indexOf c < order.length := List.indexOf_lt_length.mpr hc
  have hc2l : order.indexOf c2 < order.length := List.indexOf_lt_length.mpr hc2
  have hpc : 0 < c := hpos c hc
  have hpc2 : 0 < c2 := hpos c2 hc2
  rw [expectedA, expectedA] at h
  by_cases h1 : order.indexOf c < k <;> by_cases h2 : order.indexOf c2 < k
  · rw [if_pos h1, if_pos h2] at h
    exact indexOf_eq_imp_eq order c c2 hcl hc2l (by omega)
  · rw [if_pos h1, if_neg h2] at h
    omega
  · rw [if_neg h1, if_pos h2] at h
    omega
  · rw [if_neg h1, if_neg h2] at h
    exact h

lemma expectedB_inj (order : List Int) (hpos : ∀ o ∈ order, 0 < o)
    (j : Nat) (c c2 : Int) (hc : c ∈ order) (hc2 : c2 ∈ order)
    (h : expectedB order j c = expectedB order j c2) : c = c2 := by
  have hcl : order.indexOf c < order.length := List.indexOf_lt_length.mpr hc
  have hc2l : order.indexOf c2 < order.length := List.indexOf_lt_length.mpr hc2
  rw [expectedB, expectedB] at h
  by_cases h1 : order.indexOf c < j <;> by_cases h2 : order.indexOf c2 < j
  · rw [if_pos h1, if_pos h2] at h
    exact indexOf_eq_imp_eq order c c2 hcl hc2l (by omega)
  · rw [if_pos h1, if_neg h2, if_pos hc2l] at h
    omega
  · rw [if_neg h1, if_pos h2, if_pos hcl] at h
    omega
  · rw [if_neg h1, if_neg h2, if_pos hcl, if_pos hc2l] at h
    exact indexOf_eq_imp_eq order c c2 hcl hc2l (by omega)

/-! ## C2 -/

/-- C2: when the current chapter_id set is exactly {1..N} and chapter_order
    is a permutation of it, then after every prefix of the write sequence
    issued by reorder_chapters (each single updatePosition write of phase A
    and phase B) no two rows hold the same chapter_id: phase A's distinct
    negative temporaries never collide with untouched positive ids, and phase
    B assigns each final positive id only to the row holding the matching
    negative temporary. -/
theorem reorder_no_duplicate_positions (N : Nat) (rows : List Row)
    (order : List Int)
    (hrows : (rows.map Row.cid).Perm ((List.range N).map fun i : Nat => ((i : Int) + 1)))
    (hord : order.Perm ((List.range N).map fun i : Nat => ((i : Int) + 1)))
    (k : Nat) :
    ((applyWrites (((reorder_chapters rows order).2).take k) rows).map
      Row.cid).Nodup := by
  have hinj : Function.Injective (fun i : Nat => ((i : Int) + 1)) := by
    intro a b hab
    simp only [] at hab
    omega
  have hbasend : ((List.range N).map fun i : Nat => ((i : Int) + 1)).Nodup :=
    List.Nodup.map hinj (List.nodup_range N)
  have hordnd : order.Nodup := hord.nodup_iff.mpr hbasend
  have hidsnd : (rows.map Row.cid).Nodup := hrows.nodup_iff.mpr hbasend
  have hpos : ∀ o ∈ order, 0 < o := by
    intro o ho
    have hmem : o ∈ (List.range N).map fun i : Nat => ((i : Int) + 1) :=
      hord.mem_iff.mp ho
    obtain ⟨i, _, hi⟩ := List.mem_map.mp hmem
    rw [← hi]
    show (0 : Int) < (i : Int) + 1
    omega
  have hmemOrd : ∀ c ∈ rows.map Row.cid, c ∈ order := fun c hcm =>
    hord.mem_iff.mpr (hrows.mem_iff.mp hcm)
  have hposIds : ∀ c ∈ rows.map Row.cid, 0 < c := fun c hcm =>
    hpos c (hmemOrd c hcm)
  by_cases hre : rows.isEmpty
  · have hrnil : rows = [] := List.isEmpty_iff.mp hre
    subst hrnil
    simp [applyWrites_eq]
  · have hall : (order.all fun o => rows.any fun r => decide (r.cid = o)) = true := by
      rw [List.all_eq_true]
      intro o ho
      rw [List.any_eq_true]
      have hmem : o ∈ rows.map Row.cid := hrows.mem_iff.mpr (hord.mem_iff.mp ho)
      obtain ⟨r, hr, hrc⟩ := List.mem_map.mp hmem
      exact ⟨r, hr, by simp [hrc]⟩
    have hw : (reorder_chapters rows order).2 = reorderWrites order := by
      simp [reorder_chapters, hre, hall]
    rw [hw]
    have hform : ∀ ws : List (Int × Int),
        (applyWrites ws rows).map Row.cid = (rows.map Row.cid).map (writesFn ws) := by
      intro ws
      rw [applyWrites_eq, List.map_map, List.map_map]
      rfl
    rcases le_or_lt k order.length with hk | hk
    · have htk : (reorderWrites order).take k = (phaseAWritesFrom 0 order).take k := by
        rw [reorderWrites, List.take_append_eq_append_take]
        have hz : k - (phaseAWritesFrom 0 order).length = 0 := by
          rw [phaseA_length]
          omega
        rw [hz, List.take_zero, List.append_nil]
      rw [hform, htk]
      apply List.Nodup.map_on ?_ hidsnd
      intro x hx y hy hxy
      rw [writesFnA order hordnd hpos k hk x (hposIds x hx),
        writesFnA order hordnd hpos k hk y (hposIds y hy)] at hxy
      exact expectedA_inj order hpos k x y (hmemOrd x hx) (hmemOrd y hy) hxy
    · have hjle : min (k - order.length) order.length ≤ order.length :=
        Nat.min_le_right _ _
      have htk : (reorderWrites order).take k =
          (reorderWrites order).take
            (order.length + min (k - order.length) order.length) := by
        by_cases hk2 : order.length ≤ k - order.length
        · have hj2 : min (k - order.length) order.length = order.length :=
            Nat.min_eq_right hk2
          have hlen2 : (reorderWrites order).length = order.length + order.length := by
            rw [reorderWrites, List.length_append, phaseA_length, phaseB_length]
          rw [hj2, List.take_of_length_le (by rw [hlen2]; omega),
            List.take_of_length_le (by rw [hlen2])]
        · have hj2 : min (k - order.length) order.length = k - order.length :=
            Nat.min_eq_left (by omega)
          rw [hj2]
          have hkeq : order.length + (k - order.length) = k := by omega
          rw [hkeq]
      rw [hform, htk]
      apply List.Nodup.map_on ?_ hidsnd
      intro x hx y hy hxy
      rw [writesFnB order hordnd hpos (min (k - order.length) order.length) hjle
          x (hposIds x hx),
        writesFnB order hordnd hpos (min (k - order.length) order.length) hjle
          y (hposIds y hy)] at hxy
      exact expectedB_inj order hpos (min (k - order.length) order.length) x y
        (hmemOrd x hx) (hmemOrd y hy) hxy

/-- C2 witness: two rows at {1, 2}, order [2, 1], checked after the third of
    the four writes. -/
theorem reorder_no_duplicate_positions_witness :
    ((applyWrites (((reorder_chapters [⟨1, 0⟩, ⟨2, 1⟩] [2, 1]).2).take 3)
      [⟨1, 0⟩, ⟨2, 1⟩]).map Row.cid).Nodup :=
  reorder_no_duplicate_positions 2 [⟨1, 0⟩, ⟨2, 1⟩] [2, 1] (by decide) (by decide) 3

end YtNote
